import Mathlib

/-!
Verification of the maxsum-cpp DiscreteFunction core: index math, the
DiscreteFunction data model with its supervariable accessor, domain
expansion, conditioning, marginalisation, comparisons, and the variable
registry surface.  Variables are natural-number ids, scalar values are
rationals, and the process-wide registry is threaded explicitly as a
function from variable id to domain size.
-/

namespace MaxSum

/-- Modelled from the spec: `sub2ind(sizes, sub)` from `common.h` (not among the
sources) computes the column-major linear index `Σ_k sub[k] · ∏_{j<k} sizes[j]`,
with the first variable varying fastest. -/
def sub2ind : List Nat → List Nat → Nat
  | _, [] => 0
  | [], _ :: _ => 0
  | s :: ss, i :: is => i + s * sub2ind ss is

/-- Modelled from the spec: `ind2sub(sizes, idx)` from `common.h` (not among the
sources) recovers subindices by emitting `idx mod s_k` and dividing, for each
`k` in ascending order. -/
def ind2sub : List Nat → Nat → List Nat
  | [], _ => []
  | s :: ss, i => (i % s) :: ind2sub ss (i / s)

/-- A subindex tuple is in range for a size list when it has the same length
and each component is strictly below the corresponding size. -/
def boundedSub (sizes sub : List Nat) : Prop :=
  List.Forall₂ (· < ·) sub sizes

instance (sizes sub : List Nat) : Decidable (boundedSub sizes sub) := by
  unfold boundedSub; infer_instance

theorem sub2ind_lt {sizes sub : List Nat} (h : boundedSub sizes sub) :
    sub2ind sizes sub < sizes.prod := by
  induction h with
  | nil => simp [sub2ind]
  | cons hab hrest ih =>
    rename_i i s is ss
    simp only [sub2ind, List.prod_cons]
    calc i + s * sub2ind ss is < s + s * sub2ind ss is := by omega
    _ = s * (sub2ind ss is + 1) := by ring
    _ ≤ s * ss.prod := Nat.mul_le_mul_left s (by omega)

theorem ind2sub_sub2ind {sizes sub : List Nat} (h : boundedSub sizes sub) :
    ind2sub sizes (sub2ind sizes sub) = sub := by
  induction h with
  | nil => rfl
  | cons hab hrest ih =>
    rename_i i s is ss
    have hs : 0 < s := lt_of_le_of_lt (Nat.zero_le i) hab
    simp only [sub2ind, ind2sub]
    congr 1
    · rw [Nat.add_mul_mod_self_left]
      exact Nat.mod_eq_of_lt hab
    · rw [Nat.add_mul_div_left _ _ hs, Nat.div_eq_of_lt hab, Nat.zero_add]
      exact ih

theorem sub2ind_ind2sub {sizes : List Nat} {i : Nat} (h : i < sizes.prod) :
    sub2ind sizes (ind2sub sizes i) = i := by
  induction sizes generalizing i with
  | nil => simp only [List.prod_nil] at h; simp [sub2ind, ind2sub]; omega
  | cons s ss ih =>
    simp only [List.prod_cons] at h
    have hsp : 0 < s * ss.prod := lt_of_le_of_lt (Nat.zero_le i) h
    have hs : 0 < s := by
      rcases Nat.eq_zero_or_pos s with rfl | hpos
      · simp at hsp
      · exact hpos
    simp only [ind2sub, sub2ind]
    rw [ih (Nat.div_lt_of_lt_mul h)]
    exact Nat.mod_add_div i s

theorem ind2sub_bounded {sizes : List Nat} {i : Nat} (h : i < sizes.prod) :
    boundedSub sizes (ind2sub sizes i) := by
  induction sizes generalizing i with
  | nil => exact List.Forall₂.nil
  | cons s ss ih =>
    simp only [List.prod_cons] at h
    have hsp : 0 < s * ss.prod := lt_of_le_of_lt (Nat.zero_le i) h
    have hs : 0 < s := by
      rcases Nat.eq_zero_or_pos s with rfl | hpos
      · simp at hsp
      · exact hpos
    exact List.Forall₂.cons (Nat.mod_lt i hs) (ih (Nat.div_lt_of_lt_mul h))

theorem ind2sub_length (sizes : List Nat) (i : Nat) :
    (ind2sub sizes i).length = sizes.length := by
  induction sizes generalizing i with
  | nil => rfl
  | cons s ss ih => simp [ind2sub, ih]

theorem boundedSub_length {sizes sub : List Nat} (h : boundedSub sizes sub) :
    sub.length = sizes.length :=
  List.Forall₂.length_eq h

/-- Embeds `std::sort` on a variable list (used by the `DiscreteFunction`
constructor and by `expand`). -/
def sortList (l : List Nat) : List Nat :=
  List.insertionSort (· ≤ ·) l

/-- Embeds `std::unique` followed by the resize in `expand`: collapses runs of
equal adjacent elements, which on a sorted list removes all duplicates. -/
def uniqueConsec : List Nat → List Nat
  | [] => []
  | [a] => [a]
  | a :: b :: rest => if a = b then uniqueConsec (b :: rest) else a :: uniqueConsec (b :: rest)

theorem sortList_sorted (l : List Nat) : List.Sorted (· ≤ ·) (sortList l) :=
  List.sorted_insertionSort _ l

theorem mem_sortList {l : List Nat} {v : Nat} : v ∈ sortList l ↔ v ∈ l :=
  List.mem_insertionSort _

theorem sortList_eq_of_sorted {l : List Nat} (h : List.Sorted (· < ·) l) :
    sortList l = l :=
  List.Sorted.insertionSort_eq (h.imp le_of_lt)

theorem mem_uniqueConsec {l : List Nat} {v : Nat} : v ∈ uniqueConsec l ↔ v ∈ l := by
  induction l with
  | nil => rfl
  | cons a rest ih =>
    cases rest with
    | nil => rfl
    | cons b rest2 =>
      simp only [uniqueConsec]
      by_cases hab : a = b
      · subst hab
        rw [if_pos rfl, ih]
        simp
      · rw [if_neg hab]
        simp only [List.mem_cons]
        rw [ih]
        simp [List.mem_cons]

theorem uniqueConsec_sorted {l : List Nat} (h : List.Sorted (· ≤ ·) l) :
    List.Sorted (· < ·) (uniqueConsec l) := by
  induction l with
  | nil => exact List.sorted_nil
  | cons a rest ih =>
    cases rest with
    | nil => simp [uniqueConsec]
    | cons b rest2 =>
      rw [List.sorted_cons] at h
      obtain ⟨hle, hrest⟩ := h
      simp only [uniqueConsec]
      by_cases hab : a = b
      · subst hab
        rw [if_pos rfl]
        exact ih hrest
      · rw [if_neg hab, List.sorted_cons]
        have halt : a < b := lt_of_le_of_ne (hle b (by simp)) hab
        refine ⟨?_, ih hrest⟩
        intro v hv
        rw [mem_uniqueConsec, List.mem_cons] at hv
        rcases hv with rfl | hv
        · exact halt
        · rw [List.sorted_cons] at hrest
          exact lt_of_lt_of_le halt (hrest.1 v hv)

theorem uniqueConsec_eq_of_sorted {l : List Nat} (h : List.Sorted (· < ·) l) :
    uniqueConsec l = l := by
  induction l with
  | nil => rfl
  | cons a rest ih =>
    cases rest with
    | nil => rfl
    | cons b rest2 =>
      rw [List.sorted_cons] at h
      have hab : a ≠ b := by
        have := h.1 b (by simp)
        omega
      simp only [uniqueConsec, if_neg hab]
      rw [ih h.2]

theorem sorted_lt_nodup {l : List Nat} (h : List.Sorted (· < ·) l) : l.Nodup :=
  h.imp ne_of_lt

instance : IsAntisymm Nat (· < ·) :=
  ⟨fun a b h₁ h₂ => absurd (lt_trans h₁ h₂) (lt_irrefl a)⟩

/-- Two strictly sorted lists, one containing the other with no greater
length, are equal. -/
theorem sorted_subset_length_eq {l₁ l₂ : List Nat} (h₁ : List.Sorted (· < ·) l₁)
    (h₂ : List.Sorted (· < ·) l₂) (hsub : l₁ ⊆ l₂) (hlen : l₂.length ≤ l₁.length) :
    l₂ = l₁ := by
  have hperm : List.Perm l₁ l₂ :=
    (List.subperm_of_subset (sorted_lt_nodup h₁) hsub).perm_of_length_le hlen
  exact (List.eq_of_perm_of_sorted hperm h₁ h₂).symm

/-! ## The DiscreteFunction data model -/

/-- The `DiscreteFunction` representation: the dependent variable ids, the
cached domain size of each, and the dense column-major value array. -/
structure DiscreteFunction where
  vars : List Nat
  sizes : List Nat
  values : List ℚ
  deriving DecidableEq

/-- The invariants established by the `DiscreteFunction` constructors with
respect to the registry `reg`: a strictly sorted variable list, sizes cached
from the registry, and a value array of length `∏ sizes`. -/
def Wf (reg : Nat → Nat) (f : DiscreteFunction) : Prop :=
  List.Sorted (· < ·) f.vars ∧ f.sizes = f.vars.map reg ∧
    f.values.length = f.sizes.prod

instance (reg : Nat → Nat) (f : DiscreteFunction) : Decidable (Wf reg f) := by
  unfold Wf; infer_instance

/-- Embeds the `DiscreteFunction(VarIt begin, VarIt end, ValType val)`
constructor: sort the variable list (the source assumes it is duplicate-free
and performs no deduplication), cache each variable's registered size, and
allocate `∏ sizes` cells holding the initial scalar. -/
def mkDiscreteFunction (reg : Nat → Nat) (varList : List Nat) (val : ℚ) :
    DiscreteFunction :=
  let vs := sortList varList
  let szs := vs.map reg
  { vars := vs, sizes := szs, values := List.replicate szs.prod val }

/-- Embeds the inlined sub2ind walk of
`DiscreteFunction::operator()(VarIt,VarIt,IndIt,IndIt)`: iterate the outer
variable/subindex lists in step with the function's own variable/size lists,
skipping outer entries whose variable is not the next own variable, and
otherwise accumulating `sub * skipSize` while multiplying the stride. -/
def superIndexAux : List Nat → List Nat → List Nat → List Nat → Nat → Nat → Nat
  | [], _, _, _, _, index => index
  | _ :: _, _, [], _, _, index => index
  | _ :: _, _, _ :: _, [], _, index => index
  | mv :: mvs, sizes, ov :: ovs, sb :: sbs, skipSize, index =>
    if mv ≠ ov then
      superIndexAux (mv :: mvs) sizes ovs sbs skipSize index
    else
      match sizes with
      | [] => index
      | s :: ss => superIndexAux mvs ss ovs sbs (skipSize * s) (index + sb * skipSize)
  termination_by _ _ outer _ _ _ => outer.length

/-- The supervariable linear index computed by
`DiscreteFunction::operator()(VarIt,VarIt,IndIt,IndIt)`. -/
def superIndex (vars sizes outerVars outerSub : List Nat) : Nat :=
  superIndexAux vars sizes outerVars outerSub 1 0

/-- The restriction of a tuple over `outer` to the positions whose variable
lies in `vars` (the mathematical reading of broadcasting in the spec). -/
def restrictSub : List Nat → List Nat → List Nat → List Nat
  | ov :: outer, sb :: sub, vars =>
    if ov ∈ vars then sb :: restrictSub outer sub vars
    else restrictSub outer sub vars
  | _, _, _ => []

/-- Value of a function at a tuple over its own domain:
`operator()(IndIt begin, IndIt end)`, which composes `sub2ind` with the
linear accessor. -/
def DiscreteFunction.atOwn (f : DiscreteFunction) (sub : List Nat) : ℚ :=
  f.values.getD (sub2ind f.sizes sub) 0

/-- Value of a function at a tuple over a sorted superset of its domain:
`operator()(VarIt,VarIt,IndIt,IndIt)`. -/
def DiscreteFunction.superAt (f : DiscreteFunction) (outerVars outerSub : List Nat) : ℚ :=
  f.values.getD (superIndex f.vars f.sizes outerVars outerSub) 0

theorem restrictSub_nil_vars (outer sub : List Nat) :
    restrictSub outer sub [] = [] := by
  induction outer generalizing sub with
  | nil => rfl
  | cons ov outer ih =>
    cases sub with
    | nil => rfl
    | cons sb sub => simp [restrictSub, ih]

theorem restrictSub_cons_not_mem {a : Nat} {outer sub vars : List Nat}
    (h : a ∉ outer) : restrictSub outer sub (a :: vars) = restrictSub outer sub vars := by
  induction outer generalizing sub with
  | nil => rfl
  | cons ov outer ih =>
    cases sub with
    | nil => rfl
    | cons sb sub =>
      have hne : ov ≠ a := fun he => h (he ▸ List.mem_cons_self ov outer)
      have htail : a ∉ outer := fun hc => h (List.mem_cons_of_mem ov hc)
      simp only [restrictSub]
      rcases Decidable.em (ov ∈ vars) with hm | hm
      · rw [if_pos (List.mem_cons_of_mem a hm), if_pos hm, ih htail]
      · rw [if_neg (fun hc => by
          rcases List.mem_cons.mp hc with he | hc2
          · exact hne he
          · exact hm hc2), if_neg hm, ih htail]

theorem restrictSub_subset {outer sub vars : List Nat} (h : outer ⊆ vars)
    (hlen : sub.length = outer.length) : restrictSub outer sub vars = sub := by
  induction outer generalizing sub with
  | nil => cases sub with
    | nil => rfl
    | cons sb sub => simp at hlen
  | cons ov outer ih =>
    cases sub with
    | nil => simp at hlen
    | cons sb sub =>
      simp only [restrictSub, if_pos (h (List.mem_cons_self ov outer))]
      rw [ih (fun v hv => h (List.mem_cons_of_mem ov hv)) (by simpa using hlen)]

theorem superIndexAux_eq (outer : List Nat) (vars sizes sub : List Nat)
    (skip idx : Nat)
    (hv : List.Sorted (· < ·) vars) (ho : List.Sorted (· < ·) outer)
    (hsub : vars ⊆ outer) (hlen : sub.length = outer.length)
    (hsz : sizes.length = vars.length) :
    superIndexAux vars sizes outer sub skip idx =
      idx + skip * sub2ind sizes (restrictSub outer sub vars) := by
  induction outer generalizing vars sizes sub skip idx with
  | nil =>
    have : vars = [] := List.subset_nil.mp hsub
    subst this
    simp [superIndexAux, restrictSub, sub2ind]
  | cons ov ovs ih =>
    cases vars with
    | nil =>
      rw [restrictSub_nil_vars]
      cases sub with
      | nil => simp [superIndexAux, sub2ind]
      | cons sb sbs => simp [superIndexAux, sub2ind]
    | cons mv mvs =>
      cases sizes with
      | nil => simp at hsz
      | cons s ss =>
        cases sub with
        | nil => simp at hlen
        | cons sb sbs =>
          rw [List.sorted_cons] at ho
          rw [List.sorted_cons] at hv
          by_cases hmv : mv = ov
          · subst hmv
            have hnotm : mv ∉ ovs := fun hc => absurd (ho.1 mv hc) (lt_irrefl mv)
            rw [show superIndexAux (mv :: mvs) (s :: ss) (mv :: ovs) (sb :: sbs) skip idx
                = superIndexAux mvs ss ovs sbs (skip * s) (idx + sb * skip) from by
              simp [superIndexAux]]
            simp only [restrictSub, if_pos (List.mem_cons_self mv mvs)]
            rw [restrictSub_cons_not_mem hnotm]
            rw [ih mvs ss sbs (skip * s) (idx + sb * skip) hv.2 ho.2
              (fun v hvm => by
                have hvo : v ∈ mv :: ovs := hsub (List.mem_cons_of_mem mv hvm)
                have hlv : mv < v := hv.1 v hvm
                rcases List.mem_cons.mp hvo with rfl | hvo
                · exact absurd hlv (lt_irrefl v)
                · exact hvo)
              (by simpa using hlen) (by simpa using hsz)]
            simp only [sub2ind]
            ring
          · have hvo : mv ∈ ov :: ovs := hsub (List.mem_cons_self mv mvs)
            have hlt : ov < mv := by
              rcases List.mem_cons.mp hvo with rfl | hvo
              · exact absurd rfl hmv
              · exact ho.1 mv hvo
            have hnot : ov ∉ mv :: mvs := by
              intro hc
              rcases List.mem_cons.mp hc with rfl | hc
              · exact absurd rfl hmv
              · exact absurd (lt_trans hlt (hv.1 ov hc)) (lt_irrefl ov)
            rw [show superIndexAux (mv :: mvs) (s :: ss) (ov :: ovs) (sb :: sbs) skip idx
                = superIndexAux (mv :: mvs) (s :: ss) ovs sbs skip idx from by
              simp [superIndexAux, hmv]]
            simp only [restrictSub, if_neg hnot]
            exact ih (mv :: mvs) (s :: ss) sbs skip idx
              (List.sorted_cons.mpr hv) ho.2
              (fun v hvm => by
                have hvo2 : v ∈ ov :: ovs := hsub hvm
                rcases List.mem_cons.mp hvo2 with rfl | hvo2
                · exact absurd hvm hnot
                · exact hvo2)
              (by simpa using hlen) hsz

/-- The supervariable accessor walk equals `sub2ind` applied to the
restriction of the outer tuple to the function's own variables. -/
theorem superIndex_eq_sub2ind_restrict {vars sizes outer sub : List Nat}
    (hv : List.Sorted (· < ·) vars) (ho : List.Sorted (· < ·) outer)
    (hsub : vars ⊆ outer) (hlen : sub.length = outer.length)
    (hsz : sizes.length = vars.length) :
    superIndex vars sizes outer sub = sub2ind sizes (restrictSub outer sub vars) := by
  unfold superIndex
  rw [superIndexAux_eq outer vars sizes sub 1 0 hv ho hsub hlen hsz]
  ring

theorem mkDiscreteFunction_vars (reg : Nat → Nat) (l : List Nat) (v : ℚ) :
    (mkDiscreteFunction reg l v).vars = sortList l := rfl

theorem mkDiscreteFunction_wf (reg : Nat → Nat) {l : List Nat} (h : l.Nodup)
    (v : ℚ) : Wf reg (mkDiscreteFunction reg l v) := by
  refine ⟨?_, rfl, by simp [mkDiscreteFunction]⟩
  exact (sortList_sorted l).lt_of_le
    ((List.perm_insertionSort (· ≤ ·) l).nodup_iff.mpr h)

theorem getD_map_range (g : Nat → ℚ) {n i : Nat} (h : i < n) :
    ((List.range n).map g).getD i 0 = g i := by
  have hlen : i < ((List.range n).map g).length := by simpa using h
  rw [List.getD_eq_getElem _ _ hlen]
  simp

/-- Embeds `DiscreteFunction::expand(VarInd begin, VarInd end)`: sort the
union of the current domain with the given variables and collapse duplicates;
if no new variable appears, return unchanged; otherwise allocate a fresh
function over the union and copy every cell through the supervariable
accessor.  The unconditioned `DomainIterator` driving the copy loop is
modelled from the spec (the class itself is not among the sources): it visits
linear indices `0, 1, …` in storage order, `getSubInd` being the matching
subindex tuple. -/
def expandFn (reg : Nat → Nat) (f : DiscreteFunction) (V : List Nat) :
    DiscreteFunction :=
  let newVar := uniqueConsec (sortList (f.vars ++ V))
  if newVar.length ≤ f.vars.length then f
  else
    let result := mkDiscreteFunction reg newVar 0
    { result with
        values :=
          (List.range result.values.length).map
            (fun k => f.superAt newVar (ind2sub result.sizes k)) }

/-- C1: after `f.expand(V)` the domain is the sorted duplicate-free union of
the old domain with `V`, and every cell of the expanded function holds the
value of `f` at the restriction of the cell's tuple to the old domain. -/
theorem expand_spec (reg : Nat → Nat) (f : DiscreteFunction) (V : List Nat)
    (hf : Wf reg f) :
    (expandFn reg f V).vars = uniqueConsec (sortList (f.vars ++ V)) ∧
    ∀ x, boundedSub (expandFn reg f V).sizes x →
      (expandFn reg f V).atOwn x =
        f.atOwn (restrictSub (expandFn reg f V).vars x f.vars) := by
  obtain ⟨hs, hsz, hlenv⟩ := hf
  have hUs : List.Sorted (· < ·) (uniqueConsec (sortList (f.vars ++ V))) :=
    uniqueConsec_sorted (sortList_sorted _)
  have hfu : f.vars ⊆ uniqueConsec (sortList (f.vars ++ V)) := fun v hv =>
    mem_uniqueConsec.mpr (mem_sortList.mpr (List.mem_append_left _ hv))
  by_cases hle : (uniqueConsec (sortList (f.vars ++ V))).length ≤ f.vars.length
  · have hU : uniqueConsec (sortList (f.vars ++ V)) = f.vars :=
      sorted_subset_length_eq hs hUs hfu hle
    have hex : expandFn reg f V = f := by
      simp only [expandFn]
      rw [if_pos hle]
    rw [hex, hU]
    refine ⟨rfl, fun x hx => ?_⟩
    have hxlen : x.length = f.vars.length := by
      rw [boundedSub_length hx, hsz, List.length_map]
    rw [restrictSub_subset (fun v hv => hv) hxlen]
  · have hex : expandFn reg f V =
        { vars := sortList (uniqueConsec (sortList (f.vars ++ V))),
          sizes := (sortList (uniqueConsec (sortList (f.vars ++ V)))).map reg,
          values := (List.range
              ((List.replicate ((sortList (uniqueConsec (sortList (f.vars ++ V)))).map reg).prod (0:ℚ)).length)).map
            (fun k => f.superAt (uniqueConsec (sortList (f.vars ++ V)))
              (ind2sub ((sortList (uniqueConsec (sortList (f.vars ++ V)))).map reg) k)) } := by
      simp only [expandFn]
      rw [if_neg hle]
      rfl
    have hsortU : sortList (uniqueConsec (sortList (f.vars ++ V))) =
        uniqueConsec (sortList (f.vars ++ V)) := sortList_eq_of_sorted hUs
    rw [hex, hsortU]
    refine ⟨rfl, fun x hx => ?_⟩
    simp only [DiscreteFunction.atOwn, List.length_replicate] at hx ⊢
    have hidx : sub2ind ((uniqueConsec (sortList (f.vars ++ V))).map reg) x <
        ((uniqueConsec (sortList (f.vars ++ V))).map reg).prod := sub2ind_lt hx
    rw [getD_map_range _ hidx, ind2sub_sub2ind hx]
    simp only [DiscreteFunction.superAt]
    rw [superIndex_eq_sub2ind_restrict hs hUs hfu
      (by rw [boundedSub_length hx, List.length_map])
      (by rw [hsz, List.length_map])]

/-- C4: the supervariable accessor returns the cell at the column-major
linear index accumulated over exactly those outer positions whose variable
lies in the function's own domain, i.e. the value of the function at the
restriction of the outer tuple. -/
theorem superAccessor_spec (reg : Nat → Nat) (f : DiscreteFunction)
    (outer sub : List Nat) (hf : Wf reg f)
    (ho : List.Sorted (· < ·) outer) (hsup : f.vars ⊆ outer)
    (hrange : boundedSub (outer.map reg) sub) :
    f.superAt outer sub = f.atOwn (restrictSub outer sub f.vars) := by
  obtain ⟨hs, hsz, hlenv⟩ := hf
  simp only [DiscreteFunction.superAt, DiscreteFunction.atOwn]
  rw [superIndex_eq_sub2ind_restrict hs ho hsup
    (by rw [boundedSub_length hrange, List.length_map])
    (by rw [hsz, List.length_map])]

/-- Witness for C1 at a concrete registry, function and variable list. -/
theorem expand_spec_witness :
    Wf (fun _ => 2) (mkDiscreteFunction (fun _ => 2) [1] 3) ∧
    ((expandFn (fun _ => 2) (mkDiscreteFunction (fun _ => 2) [1] 3) [2]).vars =
        uniqueConsec (sortList ((mkDiscreteFunction (fun _ => 2) [1] 3).vars ++ [2])) ∧
      ∀ x, boundedSub (expandFn (fun _ => 2) (mkDiscreteFunction (fun _ => 2) [1] 3) [2]).sizes x →
        (expandFn (fun _ => 2) (mkDiscreteFunction (fun _ => 2) [1] 3) [2]).atOwn x =
          (mkDiscreteFunction (fun _ => 2) [1] 3).atOwn
            (restrictSub (expandFn (fun _ => 2) (mkDiscreteFunction (fun _ => 2) [1] 3) [2]).vars x
              (mkDiscreteFunction (fun _ => 2) [1] 3).vars)) :=
  ⟨by decide, expand_spec (fun _ => 2) (mkDiscreteFunction (fun _ => 2) [1] 3) [2] (by decide)⟩

/-! ## The conditioned DomainIterator, modelled from the spec -/

/-- Modelled from the spec: `DomainIterator::condition(vars, vals)` pins each
listed variable that occurs in the target's domain to its parallel value and
silently ignores the others; a variable's pin is found by scanning the
(variable, value) pairs. -/
def pinVal (V vals : List Nat) (v : Nat) : Option Nat :=
  List.lookup v (V.zip vals)

/-- Rebuilds a full tuple from pinned coordinates and a tuple over the free
coordinates: fixed positions take their pinned value, free positions consume
the free tuple in order. -/
def mergeSub : List (Option Nat) → List Nat → List Nat
  | [], _ => []
  | some v :: fs, u => v :: mergeSub fs u
  | none :: fs, u0 :: u => u0 :: mergeSub fs u
  | none :: fs, [] => 0 :: mergeSub fs []

/-- The sizes of the free (unpinned) coordinates, in order. -/
def freeSizes : List (Option Nat) → List Nat → List Nat
  | [], _ => []
  | some _ :: fs, _ :: ss => freeSizes fs ss
  | none :: fs, s :: ss => s :: freeSizes fs ss
  | _ :: _, [] => []

/-- Projection of a full tuple onto the free (unpinned) coordinates. -/
def freeProj : List (Option Nat) → List Nat → List Nat
  | [], _ => []
  | some _ :: fs, _ :: xs => freeProj fs xs
  | none :: fs, x :: xs => x :: freeProj fs xs
  | _ :: _, [] => []

/-- Number of free (unpinned) coordinates. -/
def countNone (l : List (Option Nat)) : Nat :=
  l.countP (fun o => o.isNone)

/-- Modelled from the spec: a conditioned `DomainIterator` enumerates, with
the first free coordinate varying fastest, every tuple of the target's domain
whose pinned coordinates hold their pinned values; `getSubInd` of the m-th
state is the merge of the pinned values with the m-th free tuple. -/
def domainTuples (fixed : List (Option Nat)) (sizes : List Nat) : List (List Nat) :=
  (List.range (freeSizes fixed sizes).prod).map
    (fun m => mergeSub fixed (ind2sub (freeSizes fixed sizes) m))

theorem mergeSub_length (fixed : List (Option Nat)) (u : List Nat) :
    (mergeSub fixed u).length = fixed.length := by
  induction fixed generalizing u with
  | nil => rfl
  | cons o fs ih =>
    cases o with
    | some v => simp [mergeSub, ih]
    | none => cases u with
      | nil => simp [mergeSub, ih]
      | cons u0 u => simp [mergeSub, ih]

theorem freeSizes_length {fixed : List (Option Nat)} {sizes : List Nat}
    (h : fixed.length = sizes.length) :
    (freeSizes fixed sizes).length = countNone fixed := by
  induction fixed generalizing sizes with
  | nil => simp [freeSizes, countNone]
  | cons o fs ih =>
    cases sizes with
    | nil => simp at h
    | cons s ss =>
      cases o with
      | some v =>
        simp only [freeSizes, countNone, List.countP_cons]
        rw [← countNone, ih (by simpa using h)]
        simp [countNone]
      | none =>
        simp only [freeSizes, countNone, List.countP_cons, List.length_cons]
        rw [← countNone, ih (by simpa using h)]
        simp [countNone]

theorem freeProj_mergeSub {fixed : List (Option Nat)} {u : List Nat}
    (h : u.length = countNone fixed) :
    freeProj fixed (mergeSub fixed u) = u := by
  induction fixed generalizing u with
  | nil =>
    simp only [countNone, List.countP_nil] at h
    rw [List.length_eq_zero] at h
    subst h; rfl
  | cons o fs ih =>
    cases o with
    | some v =>
      simp only [countNone, List.countP_cons] at h
      simp only [mergeSub, freeProj]
      exact ih (by simpa [countNone] using h)
    | none =>
      simp only [countNone, List.countP_cons] at h
      cases u with
      | nil => simp [countNone] at h
      | cons u0 u =>
        simp only [mergeSub, freeProj]
        rw [ih (by simpa [countNone] using h)]

/-- If every pin of `fixed` agrees with the full tuple `x`, merging the
pins with the free projection of `x` reproduces `x`. -/
theorem mergeSub_freeProj {fixed : List (Option Nat)} {x : List Nat}
    (hlen : fixed.length = x.length)
    (h : ∀ i v, fixed.getD i none = some v → x.getD i 0 = v) :
    mergeSub fixed (freeProj fixed x) = x := by
  induction fixed generalizing x with
  | nil =>
    have : x = [] := by
      cases x with
      | nil => rfl
      | cons a b => simp at hlen
    subst this; rfl
  | cons o fs ih =>
    cases x with
    | nil => simp at hlen
    | cons x0 xs =>
      cases o with
      | some v =>
        have hx0 : x0 = v := h 0 v rfl
        simp only [mergeSub, freeProj]
        rw [hx0, ih (by simpa using hlen) (fun i w hw => h (i + 1) w (by simpa using hw))]
      | none =>
        simp only [mergeSub, freeProj]
        rw [ih (by simpa using hlen) (fun i w hw => h (i + 1) w (by simpa using hw))]

/-- Merged tuples are in range whenever every pin is in range and the free
tuple is in range for the free sizes. -/
theorem mergeSub_bounded {fixed : List (Option Nat)} {sizes u : List Nat}
    (hlen : fixed.length = sizes.length)
    (hpin : ∀ i v, fixed.getD i none = some v → v < sizes.getD i 0)
    (hu : boundedSub (freeSizes fixed sizes) u) :
    boundedSub sizes (mergeSub fixed u) := by
  induction fixed generalizing sizes u with
  | nil =>
    have : sizes = [] := by
      cases sizes with
      | nil => rfl
      | cons a b => simp at hlen
    subst this
    exact List.Forall₂.nil
  | cons o fs ih =>
    cases sizes with
    | nil => simp at hlen
    | cons s ss =>
      cases o with
      | some v =>
        simp only [mergeSub]
        exact List.Forall₂.cons (hpin 0 v rfl)
          (ih (by simpa using hlen)
            (fun i w hw => hpin (i + 1) w (by simpa using hw))
            (by simpa [freeSizes] using hu))
      | none =>
        simp only [freeSizes] at hu
        cases hu with
        | cons h1 h2 =>
          rename_i u0 us
          simp only [mergeSub]
          exact List.Forall₂.cons h1
            (ih (by simpa using hlen)
              (fun i w hw => hpin (i + 1) w (by simpa using hw)) h2)

/-- Free projections of in-range tuples are in range for the free sizes. -/
theorem freeProj_bounded {fixed : List (Option Nat)} {sizes x : List Nat}
    (hlen : fixed.length = sizes.length)
    (hx : boundedSub sizes x) :
    boundedSub (freeSizes fixed sizes) (freeProj fixed x) := by
  induction fixed generalizing sizes x with
  | nil => exact List.Forall₂.nil
  | cons o fs ih =>
    cases sizes with
    | nil => simp at hlen
    | cons s ss =>
      cases hx with
      | cons h1 h2 =>
        rename_i x0 xs
        cases o with
        | some v =>
          simp only [freeProj, freeSizes]
          exact ih (by simpa using hlen) h2
        | none =>
          simp only [freeProj, freeSizes]
          exact List.Forall₂.cons h1 (ih (by simpa using hlen) h2)

theorem pinVal_not_mem {V vals : List Nat} {v : Nat} (h : v ∉ V) :
    pinVal V vals v = none := by
  induction V generalizing vals with
  | nil => rfl
  | cons b V ih =>
    cases vals with
    | nil => rfl
    | cons y0 y =>
      have hne : v ≠ b := fun he => h (he ▸ List.mem_cons_self b V)
      have hb : (v == b) = false := by simpa using hne
      simp only [pinVal, List.zip_cons_cons, List.lookup, hb]
      exact ih (fun hc => h (List.mem_cons_of_mem b hc))

theorem pinVal_head {V vals : List Nat} {b y0 : Nat} :
    pinVal (b :: V) (y0 :: vals) b = some y0 := by
  simp [pinVal, List.lookup]

theorem pinVal_tail {V vals : List Nat} {b y0 v : Nat} (h : v ≠ b) :
    pinVal (b :: V) (y0 :: vals) v = pinVal V vals v := by
  have hb : (v == b) = false := by simpa using h
  simp only [pinVal, List.zip_cons_cons, List.lookup, hb]
  rfl

theorem pinVal_nil (vals : List Nat) (v : Nat) : pinVal [] vals v = none := rfl

/-- Restricting a pinned-and-merged tuple back onto the pinned variables
recovers the pin values, for sorted variable lists. -/
theorem restrictSub_mergeSub_pin {fv ov y : List Nat} (u : List Nat)
    (hfv : List.Sorted (· < ·) fv) (hov : List.Sorted (· < ·) ov)
    (hsub : ov ⊆ fv) (hly : y.length = ov.length) :
    restrictSub fv (mergeSub (fv.map (pinVal ov y)) u) ov = y := by
  induction fv generalizing ov y u with
  | nil =>
    have hone : ov = [] := List.subset_nil.mp hsub
    subst hone
    have : y = [] := List.length_eq_zero.mp hly
    subst this
    rfl
  | cons a fv ih =>
    rw [List.sorted_cons] at hfv
    cases ov with
    | nil =>
      have : y = [] := List.length_eq_zero.mp hly
      subst this
      rw [restrictSub_nil_vars]
    | cons b ov =>
      cases y with
      | nil => simp at hly
      | cons y0 y =>
        rw [List.sorted_cons] at hov
        by_cases hab : a = b
        · subst hab
          have hmap : fv.map (pinVal (a :: ov) (y0 :: y)) = fv.map (pinVal ov y) :=
            List.map_congr_left (fun v hv =>
              pinVal_tail (fun he => absurd (hfv.1 v hv) (he ▸ lt_irrefl a)))
          simp only [List.map_cons, pinVal_head, mergeSub]
          simp only [restrictSub, if_pos (List.mem_cons_self a ov)]
          have hnotm : a ∉ fv := fun hc => absurd (hfv.1 a hc) (lt_irrefl a)
          rw [restrictSub_cons_not_mem hnotm, hmap,
            ih u hfv.2 hov.2
              (fun v hv => by
                have hvm : v ∈ a :: fv := hsub (List.mem_cons_of_mem a hv)
                rcases List.mem_cons.mp hvm with rfl | hvm
                · exact absurd (hov.1 v hv) (lt_irrefl v)
                · exact hvm)
              (by simpa using hly)]
        · have hba : a < b := by
            have hbm : b ∈ a :: fv := hsub (List.mem_cons_self b ov)
            rcases List.mem_cons.mp hbm with he | hbm
            · exact absurd he.symm hab
            · exact hfv.1 b hbm
          have hnotov : a ∉ b :: ov := by
            intro hc
            rcases List.mem_cons.mp hc with he | hc
            · exact hab he
            · exact absurd (lt_trans hba (hov.1 a hc)) (lt_irrefl a)
          have hpin : pinVal (b :: ov) (y0 :: y) a = none := pinVal_not_mem hnotov
          have hsub2 : b :: ov ⊆ fv := fun v hv => by
            have hvm : v ∈ a :: fv := hsub hv
            rcases List.mem_cons.mp hvm with rfl | hvm
            · exact absurd hv hnotov
            · exact hvm
          simp only [List.map_cons, hpin]
          cases u with
          | nil =>
            simp only [mergeSub, restrictSub, if_neg hnotov]
            exact ih [] hfv.2 (List.sorted_cons.mpr hov) hsub2 hly
          | cons u0 us =>
            simp only [mergeSub, restrictSub, if_neg hnotov]
            exact ih us hfv.2 (List.sorted_cons.mpr hov) hsub2 hly

/-- If restricting `x` onto the pinned variables gives `y`, then every pin of
`x`'s domain agrees with `x`. -/
theorem pin_match_of_restrict {fv ov y x : List Nat}
    (hfv : List.Sorted (· < ·) fv) (hov : List.Sorted (· < ·) ov)
    (hsub : ov ⊆ fv) (hlx : x.length = fv.length)
    (hr : restrictSub fv x ov = y) :
    ∀ i v, (fv.map (pinVal ov y)).getD i none = some v → x.getD i 0 = v := by
  induction fv generalizing ov y x with
  | nil =>
    intro i v hv
    simp at hv
  | cons a fv ih =>
    rw [List.sorted_cons] at hfv
    cases x with
    | nil => simp at hlx
    | cons x0 xs =>
      cases ov with
      | nil =>
        intro i v hv
        exfalso
        have hmap : (a :: fv).map (pinVal [] y) =
            List.replicate ((a :: fv).map (pinVal [] y)).length none := by
          apply List.eq_replicate_of_mem
          intro o ho
          rcases List.mem_map.mp ho with ⟨w, hw, he⟩
          rw [← he]
          exact pinVal_nil y w
        rw [hmap] at hv
        have hnone : (List.replicate ((a :: fv).map (pinVal [] y)).length
            (none : Option Nat)).getD i none = none := by
          rcases Nat.lt_or_ge i ((a :: fv).map (pinVal [] y)).length with hi | hi
          · rw [List.getD_eq_getElem _ _ (by simpa using hi)]
            simp
          · exact List.getD_eq_default _ _ (by simpa using hi)
        rw [hnone] at hv
        exact Option.noConfusion hv
      | cons b ov =>
        rw [List.sorted_cons] at hov
        by_cases hab : a = b
        · subst hab
          simp only [restrictSub, if_pos (List.mem_cons_self a ov)] at hr
          rw [restrictSub_cons_not_mem
            (fun hc => absurd (hfv.1 a hc) (lt_irrefl a))] at hr
          subst hr
          intro i v hv
          cases i with
          | zero =>
            simp only [List.map_cons, pinVal_head, List.getD_cons_zero] at hv
            simpa using hv
          | succ i =>
            simp only [List.map_cons, List.getD_cons_succ] at hv
            have hmap : fv.map (pinVal (a :: ov) (x0 :: restrictSub fv xs ov)) =
                fv.map (pinVal ov (restrictSub fv xs ov)) :=
              List.map_congr_left (fun v hv =>
                pinVal_tail (fun he => absurd (hfv.1 v hv) (he ▸ lt_irrefl a)))
            rw [hmap] at hv
            refine ih hfv.2 hov.2
              (fun v hv2 => by
                have hvm : v ∈ a :: fv := hsub (List.mem_cons_of_mem a hv2)
                rcases List.mem_cons.mp hvm with rfl | hvm
                · exact absurd (hov.1 v hv2) (lt_irrefl v)
                · exact hvm)
              (by simpa using hlx) rfl i v hv
        · have hba : a < b := by
            have hbm : b ∈ a :: fv := hsub (List.mem_cons_self b ov)
            rcases List.mem_cons.mp hbm with he | hbm
            · exact absurd he.symm hab
            · exact hfv.1 b hbm
          have hnotov : a ∉ b :: ov := by
            intro hc
            rcases List.mem_cons.mp hc with he | hc
            · exact hab he
            · exact absurd (lt_trans hba (hov.1 a hc)) (lt_irrefl a)
          have hsub2 : b :: ov ⊆ fv := fun v hv => by
            have hvm : v ∈ a :: fv := hsub hv
            rcases List.mem_cons.mp hvm with rfl | hvm
            · exact absurd hv hnotov
            · exact hvm
          simp only [restrictSub, if_neg hnotov] at hr
          intro i v hv
          cases i with
          | zero =>
            simp only [List.map_cons, List.getD_cons_zero,
              pinVal_not_mem hnotov] at hv
            exact Option.noConfusion hv
          | succ i =>
            simp only [List.map_cons, List.getD_cons_succ] at hv
            exact ih hfv.2 (List.sorted_cons.mpr hov) hsub2
              (by simpa using hlx) hr i v hv

/-- Values looked up in a zipped (variable, value) list are in range whenever
the value list is in range for the variables' sizes. -/
theorem lookup_zip_lt {reg : Nat → Nat} {ov y : List Nat}
    (hy : boundedSub (ov.map reg) y) {a v : Nat}
    (h : List.lookup a (ov.zip y) = some v) : v < reg a := by
  induction ov generalizing y with
  | nil => simp at h
  | cons b ovs ih =>
    cases y with
    | nil => simp at h
    | cons y0 ys =>
      simp only [List.map_cons] at hy
      cases hy with
      | cons h1 h2 =>
        simp only [List.zip_cons_cons, List.lookup] at h
        by_cases hab : a = b
        · subst hab
          rw [show (a == a) = true from beq_self_eq_true a] at h
          have hyv : y0 = v := Option.some.inj h
          rw [← hyv]
          exact h1
        · rw [show (a == b) = false from by simpa using hab] at h
          exact ih h2 h

/-- Every pin produced by `pinVal` is in range for the registry size of the
pinned variable. -/
theorem pin_bounded {reg : Nat → Nat} {fv ov y : List Nat}
    (hy : boundedSub (ov.map reg) y) :
    ∀ i v, (fv.map (pinVal ov y)).getD i none = some v →
      v < (fv.map reg).getD i 0 := by
  intro i v hv
  rcases Nat.lt_or_ge i fv.length with hi | hi
  · rw [List.getD_eq_getElem _ _ (by simpa using hi)] at hv
    rw [List.getD_eq_getElem _ _ (by simpa using hi)]
    simp only [List.getElem_map] at hv ⊢
    exact lookup_zip_lt hy hv
  · rw [List.getD_eq_default _ _ (by simpa using hi)] at hv
    exact Option.noConfusion hv

/-- Pinning a function's own variables against its own tuple pins every
coordinate to the tuple's value. -/
theorem pin_self {fv y : List Nat} (hnd : fv.Nodup) (hly : y.length = fv.length) :
    fv.map (pinVal fv y) = y.map some := by
  induction fv generalizing y with
  | nil =>
    have : y = [] := List.length_eq_zero.mp hly
    subst this; rfl
  | cons a fv ih =>
    cases y with
    | nil => simp at hly
    | cons y0 ys =>
      rw [List.nodup_cons] at hnd
      simp only [List.map_cons, pinVal_head]
      congr 1
      have hmap : fv.map (pinVal (a :: fv) (y0 :: ys)) = fv.map (pinVal fv ys) :=
        List.map_congr_left (fun v hv =>
          pinVal_tail (fun he => hnd.1 (he ▸ hv)))
      rw [hmap, ih hnd.2 (by simpa using hly)]

theorem mergeSub_all_some (y : List Nat) (u : List Nat) :
    mergeSub (y.map some) u = y := by
  induction y with
  | nil => rfl
  | cons y0 ys ih => simp [mergeSub, ih]

theorem freeSizes_all_some (y : List Nat) (sizes : List Nat) :
    freeSizes (y.map some) sizes = [] := by
  induction y generalizing sizes with
  | nil => rfl
  | cons y0 ys ih =>
    cases sizes with
    | nil => rfl
    | cons s ss => simp [freeSizes, ih]

/-! ## Marginalisation -/

/-- Embeds the `std::includes` test over the two sorted variable ranges that
guards `marginal`. -/
def sortedIncludes : List Nat → List Nat → Bool
  | _, [] => true
  | [], _ :: _ => false
  | a :: as, b :: bs =>
    if b < a then false
    else if a < b then sortedIncludes as (b :: bs)
    else sortedIncludes as bs

/-- Embeds the inner aggregation loop of `marginal`: the first conditioned
cell seeds the accumulator and the remaining cells are folded in with the
aggregate functor.  The empty case cannot occur for positive domain sizes
(the source reads the first cell unconditionally). -/
def aggregateAll (aggregate : ℚ → ℚ → ℚ) : List ℚ → ℚ
  | [] => 0
  | x :: xs => xs.foldl aggregate x

/-- Embeds an in-place update loop writing `g j` into slot `j` of the value
array for each linear index `j = 0, …, n-1` in order. -/
def overwriteSeq (vals : List ℚ) (n : Nat) (g : Nat → ℚ) : List ℚ :=
  (List.range n).foldl (fun acc j => acc.set j (g j)) vals

/-- Embeds `marginal(inFun, aggregate, outFun)`: if the domain of `outFun` is
not a sorted-range subset of `inFun`'s the function throws
`BadDomainException` before touching `outFun` (modelled as `none`); otherwise
each cell of `outFun` is overwritten with the aggregation of the cells of
`inFun` whose tuple extends the cell's output tuple.  The conditioned
`DomainIterator` enumerating those cells is modelled from the spec. -/
def marginal (inFun : DiscreteFunction) (aggregate : ℚ → ℚ → ℚ)
    (outFun : DiscreteFunction) : Option DiscreteFunction :=
  if sortedIncludes inFun.vars outFun.vars then
    some { outFun with
            values :=
              overwriteSeq outFun.values outFun.sizes.prod (fun j =>
                aggregateAll aggregate
                  ((domainTuples
                      (inFun.vars.map (pinVal outFun.vars (ind2sub outFun.sizes j)))
                      inFun.sizes).map
                    (fun u => inFun.values.getD (sub2ind inFun.sizes u) 0))) }
  else none

/-- Modelled from the in-source documentation of `maxMarginal`: its behaviour
is `marginal(inFun, std::max, outFun)` (the out-of-line body lives in a
source file not provided). -/
def maxMarginal (inFun outFun : DiscreteFunction) : Option DiscreteFunction :=
  marginal inFun (fun a b => max a b) outFun

/-- Modelled from the in-source documentation of `minMarginal`: its behaviour
is `marginal(inFun, std::min, outFun)`. -/
def minMarginal (inFun outFun : DiscreteFunction) : Option DiscreteFunction :=
  marginal inFun (fun a b => min a b) outFun

/-- The state of `outFun` observable after a call to `marginal`: on the error
path the exception propagates before any write, so `outFun` keeps its former
value. -/
def marginalRun (inFun : DiscreteFunction) (aggregate : ℚ → ℚ → ℚ)
    (outFun : DiscreteFunction) : DiscreteFunction :=
  (marginal inFun aggregate outFun).getD outFun

theorem sortedIncludes_iff {l₁ l₂ : List Nat}
    (h₁ : List.Sorted (· < ·) l₁) (h₂ : List.Sorted (· < ·) l₂) :
    sortedIncludes l₁ l₂ = true ↔ l₂ ⊆ l₁ := by
  induction l₁ generalizing l₂ with
  | nil =>
    cases l₂ with
    | nil => simp [sortedIncludes]
    | cons b bs => simp [sortedIncludes]
  | cons a as ih =>
    rw [List.sorted_cons] at h₁
    cases l₂ with
    | nil => simp [sortedIncludes]
    | cons b bs =>
      rw [List.sorted_cons] at h₂
      by_cases hba : b < a
      · simp only [sortedIncludes, if_pos hba]
        constructor
        · intro hfalse
          exact absurd hfalse (by simp)
        · intro hss
          exfalso
          have hbm : b ∈ a :: as := hss (List.mem_cons_self b bs)
          rcases List.mem_cons.mp hbm with rfl | hbm
          · exact lt_irrefl b hba
          · exact absurd (lt_trans hba (h₁.1 b hbm)) (lt_irrefl b)
      · by_cases hab : a < b
        · simp only [sortedIncludes, if_neg hba, if_pos hab]
          rw [ih h₁.2 (List.sorted_cons.mpr h₂)]
          constructor
          · intro hss v hv
            exact List.mem_cons_of_mem a (hss hv)
          · intro hss v hv
            have hvm : v ∈ a :: as := hss hv
            rcases List.mem_cons.mp hvm with rfl | hvm
            · exfalso
              rcases List.mem_cons.mp hv with rfl | hv2
              · exact lt_irrefl v hab
              · exact absurd (lt_trans hab (h₂.1 v hv2)) (lt_irrefl v)
            · exact hvm
        · have hae : a = b := by omega
          subst hae
          simp only [sortedIncludes, if_neg hba, if_neg hab]
          rw [ih h₁.2 h₂.2]
          constructor
          · intro hss
            exact List.cons_subset.mpr
              ⟨List.mem_cons_self a as, fun v hv => List.mem_cons_of_mem a (hss hv)⟩
          · intro hss v hv
            have hvm : v ∈ a :: as := hss (List.mem_cons_of_mem a hv)
            rcases List.mem_cons.mp hvm with rfl | hvm
            · exact absurd (h₂.1 v hv) (lt_irrefl v)
            · exact hvm

theorem set_append_length {α : Type} (l₁ l₂ : List α) (a : α) :
    (l₁ ++ l₂).set l₁.length a = l₁ ++ l₂.set 0 a := by
  induction l₁ with
  | nil => rfl
  | cons x xs ih => simp [List.set_cons_succ, ih]

theorem foldl_set_range_aux (g : Nat → ℚ) (vs : List ℚ) :
    ∀ k, k ≤ vs.length →
      (List.range k).foldl (fun acc j => acc.set j (g j)) vs =
        (List.range k).map g ++ vs.drop k := by
  intro k
  induction k with
  | zero => simp
  | succ k ih =>
    intro hk
    rw [List.range_succ, List.foldl_append, ih (Nat.le_of_succ_le hk)]
    simp only [List.foldl_cons, List.foldl_nil]
    have hklt : k < vs.length := hk
    rw [List.drop_eq_getElem_cons hklt]
    have hlenmap : ((List.range k).map g).length = k := by simp
    rw [show ((List.range k).map g ++ vs[k] :: vs.drop (k + 1)).set k (g k)
        = ((List.range k).map g ++ vs[k] :: vs.drop (k + 1)).set
            ((List.range k).map g).length (g k) from by rw [hlenmap]]
    rw [set_append_length, List.set_cons_zero]
    simp

/-- A full overwrite pass is a pointwise rebuild of the value array. -/
theorem overwriteSeq_eq_map {vals : List ℚ} {n : Nat} (g : Nat → ℚ)
    (h : vals.length = n) : overwriteSeq vals n g = (List.range n).map g := by
  unfold overwriteSeq
  rw [foldl_set_range_aux g vals n (le_of_eq h.symm)]
  simp [h]

theorem foldl_max_le_self (seed : ℚ) (l : List ℚ) : seed ≤ l.foldl max seed := by
  induction l generalizing seed with
  | nil => exact le_refl seed
  | cons b l ih => exact le_trans (le_max_left seed b) (ih (max seed b))

theorem le_foldl_max {a : ℚ} {l : List ℚ} (h : a ∈ l) (seed : ℚ) :
    a ≤ l.foldl max seed := by
  induction l generalizing seed with
  | nil => simp at h
  | cons b l ih =>
    rcases List.mem_cons.mp h with rfl | h
    · exact le_trans (le_max_right seed a) (foldl_max_le_self (max seed a) l)
    · exact ih h (max seed b)

theorem foldl_max_mem (seed : ℚ) (l : List ℚ) :
    l.foldl max seed = seed ∨ l.foldl max seed ∈ l := by
  induction l generalizing seed with
  | nil => exact Or.inl rfl
  | cons b l ih =>
    rcases ih (max seed b) with h | h
    · rw [List.foldl_cons, h]
      rcases max_choice seed b with h2 | h2
      · exact Or.inl h2
      · exact Or.inr (by rw [h2]; exact List.mem_cons_self b l)
    · exact Or.inr (List.mem_cons_of_mem b h)

theorem aggregateAll_max_mem {l : List ℚ} (h : l ≠ []) :
    aggregateAll (fun a b => max a b) l ∈ l := by
  cases l with
  | nil => exact absurd rfl h
  | cons x xs =>
    simp only [aggregateAll]
    rcases foldl_max_mem x xs with h2 | h2
    · rw [h2]
      exact List.mem_cons_self x xs
    · exact List.mem_cons_of_mem x h2

theorem le_aggregateAll_max {a : ℚ} {l : List ℚ} (h : a ∈ l) :
    a ≤ aggregateAll (fun p q => max p q) l := by
  cases l with
  | nil => simp at h
  | cons x xs =>
    simp only [aggregateAll]
    rcases List.mem_cons.mp h with rfl | h
    · exact foldl_max_le_self a xs
    · exact le_foldl_max h x

theorem freeSizes_mem_subset {fixed : List (Option Nat)} {sizes : List Nat}
    {s : Nat} (h : s ∈ freeSizes fixed sizes) : s ∈ sizes := by
  induction fixed generalizing sizes with
  | nil => simp [freeSizes] at h
  | cons o fs ih =>
    cases sizes with
    | nil =>
      cases o with
      | some v => simp [freeSizes] at h
      | none => simp [freeSizes] at h
    | cons sz ss =>
      cases o with
      | some v => exact List.mem_cons_of_mem sz (ih h)
      | none =>
        rcases List.mem_cons.mp h with rfl | h
        · exact List.mem_cons_self s ss
        · exact List.mem_cons_of_mem sz (ih h)

/-- C8: `marginal` (and with it every specialisation obtained by fixing the
aggregate functor) fails with `BadDomain` exactly when the output domain is
not a subset of the input domain, and on that error the output function is
left unchanged. -/
theorem marginal_badDomain_spec (reg : Nat → Nat) (f out : DiscreteFunction)
    (agg : ℚ → ℚ → ℚ) (hf : Wf reg f) (hout : Wf reg out) :
    (marginal f agg out = none ↔ ¬ out.vars ⊆ f.vars) ∧
    (marginal f agg out = none → marginalRun f agg out = out) := by
  obtain ⟨hfs, hfsz, hflen⟩ := hf
  obtain ⟨hos, hosz, holen⟩ := hout
  constructor
  · cases heq : sortedIncludes f.vars out.vars with
    | false =>
      have hns : ¬ out.vars ⊆ f.vars := fun hss =>
        absurd ((sortedIncludes_iff hfs hos).mpr hss) (by rw [heq]; simp)
      simp [marginal, heq, hns]
    | true =>
      have hss : out.vars ⊆ f.vars := (sortedIncludes_iff hfs hos).mp heq
      simp [marginal, heq, hss]
  · intro h
    simp [marginalRun, h]

/-- Witness for C8 at a concrete registry and pair of functions. -/
theorem marginal_badDomain_spec_witness :
    (Wf (fun _ => 2) (mkDiscreteFunction (fun _ => 2) [1] 0) ∧
      Wf (fun _ => 2) (mkDiscreteFunction (fun _ => 2) [2] 0)) ∧
    ((marginal (mkDiscreteFunction (fun _ => 2) [1] 0) (fun a b => max a b)
        (mkDiscreteFunction (fun _ => 2) [2] 0) = none ↔
      ¬ (mkDiscreteFunction (fun _ => 2) [2] 0).vars ⊆
          (mkDiscreteFunction (fun _ => 2) [1] 0).vars) ∧
      (marginal (mkDiscreteFunction (fun _ => 2) [1] 0) (fun a b => max a b)
          (mkDiscreteFunction (fun _ => 2) [2] 0) = none →
        marginalRun (mkDiscreteFunction (fun _ => 2) [1] 0) (fun a b => max a b)
          (mkDiscreteFunction (fun _ => 2) [2] 0) =
          mkDiscreteFunction (fun _ => 2) [2] 0)) :=
  ⟨⟨by decide, by decide⟩,
    marginal_badDomain_spec (fun _ => 2) (mkDiscreteFunction (fun _ => 2) [1] 0)
      (mkDiscreteFunction (fun _ => 2) [2] 0) (fun a b => max a b)
      (by decide) (by decide)⟩

/-- C10: when the output domain equals the input domain, every conditioned
inner iteration of `marginal` visits exactly one cell, so the output becomes
a pointwise copy of the input for any aggregate functor. -/
theorem marginal_identity_spec (reg : Nat → Nat) (f out : DiscreteFunction)
    (agg : ℚ → ℚ → ℚ) (hf : Wf reg f) (hout : Wf reg out)
    (heq : out.vars = f.vars) :
    marginal f agg out = some { out with values := f.values } := by
  obtain ⟨hfs, hfsz, hflen⟩ := hf
  obtain ⟨hos, hosz, holen⟩ := hout
  have hsizeq : out.sizes = f.sizes := by rw [hosz, heq, ← hfsz]
  have hincl : sortedIncludes f.vars out.vars = true :=
    (sortedIncludes_iff hfs hos).mpr (heq ▸ fun v hv => hv)
  unfold marginal
  rw [if_pos (by rw [hincl])]
  congr 1
  rw [overwriteSeq_eq_map _ holen]
  simp only [DiscreteFunction.mk.injEq, true_and]
  apply List.ext_getElem (by rw [List.length_map, List.length_range,
    hsizeq, hflen])
  intro i h₁ h₂
  have hi : i < out.sizes.prod := by simpa using h₁
  have hif : i < f.sizes.prod := by rw [← hsizeq]; exact hi
  have hylen : (ind2sub out.sizes i).length = f.vars.length := by
    rw [ind2sub_length, hosz, heq, List.length_map]
  have hfix : f.vars.map (pinVal out.vars (ind2sub out.sizes i)) =
      (ind2sub out.sizes i).map some := by
    rw [heq]
    exact pin_self (sorted_lt_nodup hfs) hylen
  rw [List.getElem_map, List.getElem_range, hfix]
  rw [show domainTuples ((ind2sub out.sizes i).map some) f.sizes =
      [mergeSub ((ind2sub out.sizes i).map some) (ind2sub [] 0)] from by
    unfold domainTuples
    rw [freeSizes_all_some]
    rfl]
  rw [mergeSub_all_some]
  show aggregateAll agg [f.values.getD (sub2ind f.sizes (ind2sub out.sizes i)) 0] =
    f.values[i]
  rw [show aggregateAll agg [f.values.getD (sub2ind f.sizes (ind2sub out.sizes i)) 0] =
      f.values.getD (sub2ind f.sizes (ind2sub out.sizes i)) 0 from rfl]
  rw [hsizeq, sub2ind_ind2sub hif]
  exact List.getD_eq_getElem _ _ h₂

/-- Witness for C10 at a concrete registry, input and output function. -/
theorem marginal_identity_spec_witness :
    (Wf (fun _ => 2) (mkDiscreteFunction (fun _ => 2) [1] 4) ∧
      Wf (fun _ => 2) (mkDiscreteFunction (fun _ => 2) [1] 9) ∧
      (mkDiscreteFunction (fun _ => 2) [1] 9).vars =
        (mkDiscreteFunction (fun _ => 2) [1] 4).vars) ∧
    marginal (mkDiscreteFunction (fun _ => 2) [1] 4) (fun a b => a + b)
        (mkDiscreteFunction (fun _ => 2) [1] 9) =
      some { mkDiscreteFunction (fun _ => 2) [1] 9 with
              values := (mkDiscreteFunction (fun _ => 2) [1] 4).values } :=
  ⟨⟨by decide, by decide, by decide⟩,
    marginal_identity_spec (fun _ => 2) (mkDiscreteFunction (fun _ => 2) [1] 4)
      (mkDiscreteFunction (fun _ => 2) [1] 9) (fun a b => a + b)
      (by decide) (by decide) (by decide)⟩

/-- C2: `maxMarginal(f, out)` overwrites `out` so that each output cell holds
the maximum of `f` over all input tuples restricting to the cell's tuple,
while the domains of both functions are unchanged. -/
theorem maxMarginal_spec (reg : Nat → Nat) (f out : DiscreteFunction)
    (hf : Wf reg f) (hout : Wf reg out) (hsub : out.vars ⊆ f.vars)
    (hpos : ∀ v, 0 < reg v) :
    ∃ r, maxMarginal f out = some r ∧ r.vars = out.vars ∧ r.sizes = out.sizes ∧
      ∀ y, boundedSub out.sizes y →
        (∃ x, boundedSub f.sizes x ∧ restrictSub f.vars x out.vars = y ∧
          r.atOwn y = f.atOwn x) ∧
        (∀ x, boundedSub f.sizes x → restrictSub f.vars x out.vars = y →
          f.atOwn x ≤ r.atOwn y) := by
  obtain ⟨hfs, hfsz, hflen⟩ := hf
  obtain ⟨hos, hosz, holen⟩ := hout
  have hincl : sortedIncludes f.vars out.vars = true :=
    (sortedIncludes_iff hfs hos).mpr hsub
  refine ⟨{ out with
      values :=
        overwriteSeq out.values out.sizes.prod (fun j =>
          aggregateAll (fun a b => max a b)
            ((domainTuples
                (f.vars.map (pinVal out.vars (ind2sub out.sizes j)))
                f.sizes).map
              (fun u => f.values.getD (sub2ind f.sizes u) 0))) },
    by unfold maxMarginal marginal; rw [if_pos (by rw [hincl])],
    rfl, rfl, ?_⟩
  intro y hy
  have hj : sub2ind out.sizes y < out.sizes.prod := sub2ind_lt hy
  have hy2 : ind2sub out.sizes (sub2ind out.sizes y) = y := ind2sub_sub2ind hy
  have hval : DiscreteFunction.atOwn
      { out with
          values :=
            overwriteSeq out.values out.sizes.prod (fun j =>
              aggregateAll (fun a b => max a b)
                ((domainTuples
                    (f.vars.map (pinVal out.vars (ind2sub out.sizes j)))
                    f.sizes).map
                  (fun u => f.values.getD (sub2ind f.sizes u) 0))) } y =
      aggregateAll (fun a b => max a b)
        ((domainTuples (f.vars.map (pinVal out.vars y)) f.sizes).map
          (fun u => f.values.getD (sub2ind f.sizes u) 0)) := by
    simp only [DiscreteFunction.atOwn]
    rw [overwriteSeq_eq_map _ holen, getD_map_range _ hj, hy2]
  have hybnd : boundedSub (out.vars.map reg) y := by rw [← hosz]; exact hy
  have hfixlen : (f.vars.map (pinVal out.vars y)).length = f.sizes.length := by
    rw [List.length_map, hfsz, List.length_map]
  have hpin : ∀ i v, (f.vars.map (pinVal out.vars y)).getD i none = some v →
      v < f.sizes.getD i 0 := by
    intro i v hv
    rw [hfsz]
    exact pin_bounded hybnd i v hv
  have hly : y.length = out.vars.length := by
    rw [boundedSub_length hy, hosz, List.length_map]
  have hNpos : 0 < (freeSizes (f.vars.map (pinVal out.vars y)) f.sizes).prod := by
    apply List.prod_pos
    intro s hs
    have hmem : s ∈ f.sizes := freeSizes_mem_subset hs
    rw [hfsz] at hmem
    rcases List.mem_map.mp hmem with ⟨v, hv, rfl⟩
    exact hpos v
  have hLlen : ((domainTuples (f.vars.map (pinVal out.vars y)) f.sizes).map
      (fun u => f.values.getD (sub2ind f.sizes u) 0)).length =
      (freeSizes (f.vars.map (pinVal out.vars y)) f.sizes).prod := by
    unfold domainTuples
    simp
  constructor
  · have hmem := @aggregateAll_max_mem
      ((domainTuples (f.vars.map (pinVal out.vars y)) f.sizes).map
        (fun u => f.values.getD (sub2ind f.sizes u) 0))
      (by
        intro hnil
        rw [hnil] at hLlen
        simp only [List.length_nil] at hLlen
        omega)
    rcases List.mem_map.mp hmem with ⟨u, hu, hveq⟩
    unfold domainTuples at hu
    rcases List.mem_map.mp hu with ⟨m, hm, rfl⟩
    have hmlt : m < (freeSizes (f.vars.map (pinVal out.vars y)) f.sizes).prod :=
      List.mem_range.mp hm
    refine ⟨mergeSub (f.vars.map (pinVal out.vars y))
      (ind2sub (freeSizes (f.vars.map (pinVal out.vars y)) f.sizes) m), ?_, ?_, ?_⟩
    · exact mergeSub_bounded hfixlen hpin (ind2sub_bounded hmlt)
    · exact restrictSub_mergeSub_pin _ hfs hos hsub hly
    · rw [hval, ← hveq]
      rfl
  · intro x hx hr
    have hlx : x.length = f.vars.length := by
      rw [boundedSub_length hx, hfsz, List.length_map]
    have hpinmatch := pin_match_of_restrict hfs hos hsub hlx hr
    have hfl2 : (f.vars.map (pinVal out.vars y)).length = x.length := by
      rw [List.length_map, hlx]
    have hxmerge : mergeSub (f.vars.map (pinVal out.vars y))
        (freeProj (f.vars.map (pinVal out.vars y)) x) = x :=
      mergeSub_freeProj hfl2 hpinmatch
    have hufree : boundedSub (freeSizes (f.vars.map (pinVal out.vars y)) f.sizes)
        (freeProj (f.vars.map (pinVal out.vars y)) x) :=
      freeProj_bounded hfixlen hx
    have hmlt : sub2ind (freeSizes (f.vars.map (pinVal out.vars y)) f.sizes)
        (freeProj (f.vars.map (pinVal out.vars y)) x) <
        (freeSizes (f.vars.map (pinVal out.vars y)) f.sizes).prod :=
      sub2ind_lt hufree
    have hnth : mergeSub (f.vars.map (pinVal out.vars y))
        (ind2sub (freeSizes (f.vars.map (pinVal out.vars y)) f.sizes)
          (sub2ind (freeSizes (f.vars.map (pinVal out.vars y)) f.sizes)
            (freeProj (f.vars.map (pinVal out.vars y)) x))) = x := by
      rw [ind2sub_sub2ind hufree, hxmerge]
    have hxmem : x ∈ domainTuples (f.vars.map (pinVal out.vars y)) f.sizes := by
      unfold domainTuples
      refine List.mem_map.mpr ⟨sub2ind (freeSizes (f.vars.map (pinVal out.vars y)) f.sizes)
        (freeProj (f.vars.map (pinVal out.vars y)) x), List.mem_range.mpr hmlt, hnth⟩
    rw [hval]
    exact le_aggregateAll_max (List.mem_map.mpr ⟨x, hxmem, rfl⟩)

/-- Witness for C2 at a concrete registry and pair of functions. -/
theorem maxMarginal_spec_witness :
    (Wf (fun _ => 2) (mkDiscreteFunction (fun _ => 2) [1, 2] 3) ∧
      Wf (fun _ => 2) (mkDiscreteFunction (fun _ => 2) [1] 0) ∧
      (mkDiscreteFunction (fun _ => 2) [1] 0).vars ⊆
        (mkDiscreteFunction (fun _ => 2) [1, 2] 3).vars ∧
      ∀ v : Nat, 0 < (fun _ => 2) v) ∧
    (∃ r, maxMarginal (mkDiscreteFunction (fun _ => 2) [1, 2] 3)
        (mkDiscreteFunction (fun _ => 2) [1] 0) = some r ∧
      r.vars = (mkDiscreteFunction (fun _ => 2) [1] 0).vars ∧
      r.sizes = (mkDiscreteFunction (fun _ => 2) [1] 0).sizes ∧
      ∀ y, boundedSub (mkDiscreteFunction (fun _ => 2) [1] 0).sizes y →
        (∃ x, boundedSub (mkDiscreteFunction (fun _ => 2) [1, 2] 3).sizes x ∧
          restrictSub (mkDiscreteFunction (fun _ => 2) [1, 2] 3).vars x
            (mkDiscreteFunction (fun _ => 2) [1] 0).vars = y ∧
          r.atOwn y = (mkDiscreteFunction (fun _ => 2) [1, 2] 3).atOwn x) ∧
        (∀ x, boundedSub (mkDiscreteFunction (fun _ => 2) [1, 2] 3).sizes x →
          restrictSub (mkDiscreteFunction (fun _ => 2) [1, 2] 3).vars x
            (mkDiscreteFunction (fun _ => 2) [1] 0).vars = y →
          (mkDiscreteFunction (fun _ => 2) [1, 2] 3).atOwn x ≤ r.atOwn y)) :=
  ⟨⟨by decide, by decide, by decide, fun v => Nat.succ_pos 1⟩,
    maxMarginal_spec (fun _ => 2) (mkDiscreteFunction (fun _ => 2) [1, 2] 3)
      (mkDiscreteFunction (fun _ => 2) [1] 0)
      (by decide) (by decide) (by decide) (fun v => Nat.succ_pos 1)⟩

/-! ## Conditioning -/

/-- Embeds `DiscreteFunction::condition(VarIt,VarIt,IndIt,IndIt)`: pin the
given variables through a conditioned `DomainIterator` (modelled from the
spec); if none of them occurs in the domain, return unchanged; otherwise
allocate a function over the remaining free variables and copy each
conditioned cell of this function into the result through the result's
supervariable accessor. -/
def conditionFn (reg : Nat → Nat) (f : DiscreteFunction) (V vals : List Nat) :
    DiscreteFunction :=
  if (f.vars.map (pinVal V vals)).all (fun o => o.isNone) then f
  else
    let freeVars := f.vars.filter (fun v => (pinVal V vals v).isNone)
    let result := mkDiscreteFunction reg freeVars 0
    { result with
        values :=
          (domainTuples (f.vars.map (pinVal V vals)) f.sizes).foldl
            (fun acc t =>
              acc.set (superIndex result.vars result.sizes f.vars t)
                (f.values.getD (sub2ind f.sizes t) 0))
            result.values }

/-- The tuple over `dom(f)` that extends a tuple `y` over the free variables
by assigning each conditioned variable of the domain its listed value. -/
def extendTuple (fvars V vals y : List Nat) : List Nat :=
  mergeSub (fvars.map (pinVal V vals)) y

theorem pinVal_some_of_mem {V vals : List Nat} {v : Nat} (hm : v ∈ V)
    (hlen : vals.length = V.length) : ∃ w, pinVal V vals v = some w := by
  induction V generalizing vals with
  | nil => simp at hm
  | cons b V ih =>
    cases vals with
    | nil => simp at hlen
    | cons y0 ys =>
      by_cases hvb : v = b
      · subst hvb
        exact ⟨y0, pinVal_head⟩
      · rw [pinVal_tail hvb]
        exact ih (by
          rcases List.mem_cons.mp hm with he | hm2
          · exact absurd he hvb
          · exact hm2) (by simpa using hlen)

theorem pinVal_isNone_iff {V vals : List Nat} {v : Nat}
    (hlen : vals.length = V.length) :
    (pinVal V vals v).isNone = true ↔ v ∉ V := by
  constructor
  · intro h hm
    rcases pinVal_some_of_mem hm hlen with ⟨w, hw⟩
    rw [hw] at h
    simp at h
  · intro h
    rw [pinVal_not_mem h]
    rfl

theorem mergeSub_all_none {fixed : List (Option Nat)} {y : List Nat}
    (h : ∀ o ∈ fixed, o = none) (hlen : y.length = fixed.length) :
    mergeSub fixed y = y := by
  induction fixed generalizing y with
  | nil =>
    have : y = [] := List.length_eq_zero.mp hlen
    subst this; rfl
  | cons o fs ih =>
    cases y with
    | nil => simp at hlen
    | cons y0 ys =>
      have ho : o = none := h o (List.mem_cons_self o fs)
      subst ho
      simp only [mergeSub]
      rw [ih (fun o2 ho2 => h o2 (List.mem_cons_of_mem none ho2))
        (by simpa using hlen)]

theorem freeSizes_map_filter (reg : Nat → Nat) (fv : List Nat)
    (pin : Nat → Option Nat) :
    freeSizes (fv.map pin) (fv.map reg) =
      (fv.filter (fun v => (pin v).isNone)).map reg := by
  induction fv with
  | nil => rfl
  | cons a fv ih =>
    simp only [List.map_cons]
    cases hp : pin a with
    | some w =>
      simp only [freeSizes, List.filter_cons, hp]
      rw [ih]
      rfl
    | none =>
      simp only [freeSizes, List.filter_cons, hp]
      rw [ih]
      rfl

theorem restrictSub_filter_eq_freeProj {fv t W : List Nat}
    {pin : Nat → Option Nat}
    (hW : ∀ v ∈ fv, (v ∈ W ↔ (pin v).isNone = true))
    (hlen : t.length = fv.length) :
    restrictSub fv t W = freeProj (fv.map pin) t := by
  induction fv generalizing t with
  | nil =>
    have : t = [] := List.length_eq_zero.mp hlen
    subst this; rfl
  | cons a fv ih =>
    cases t with
    | nil => simp at hlen
    | cons t0 ts =>
      have hWa := hW a (List.mem_cons_self a fv)
      have htail : ∀ v ∈ fv, (v ∈ W ↔ (pin v).isNone = true) :=
        fun v hv => hW v (List.mem_cons_of_mem a hv)
      cases hp : pin a with
      | some w =>
        have hna : a ∉ W := fun hc => by
          have := hWa.mp hc
          rw [hp] at this
          simp at this
        simp only [restrictSub, if_neg hna, List.map_cons, hp, freeProj]
        exact ih htail (by simpa using hlen)
      | none =>
        have hin : a ∈ W := hWa.mpr (by rw [hp]; rfl)
        simp only [restrictSub, if_pos hin, List.map_cons, hp, freeProj]
        rw [ih htail (by simpa using hlen)]

/-- C3: conditioning removes exactly the listed variables from the domain,
every remaining cell holds the value of the original function at the tuple
extended with the conditioned values, and the function is returned unchanged
when no listed variable occurs in the domain. -/
theorem condition_spec (reg : Nat → Nat) (f : DiscreteFunction)
    (V vals : List Nat) (hf : Wf reg f)
    (hV : List.Sorted (· < ·) V) (hlen : vals.length = V.length)
    (hrange : boundedSub (V.map reg) vals) :
    (conditionFn reg f V vals).vars =
      f.vars.filter (fun v => decide (v ∉ V)) ∧
    (∀ y, boundedSub (conditionFn reg f V vals).sizes y →
      (conditionFn reg f V vals).atOwn y =
        f.atOwn (extendTuple f.vars V vals y)) ∧
    ((∀ v ∈ V, v ∉ f.vars) → conditionFn reg f V vals = f) := by
  obtain ⟨hfs, hfsz, hflen⟩ := hf
  have hfiltEq : f.vars.filter (fun v => (pinVal V vals v).isNone) =
      f.vars.filter (fun v => decide (v ∉ V)) := by
    apply List.filter_congr
    intro v hv
    rcases Decidable.em (v ∈ V) with hm | hm
    · rcases pinVal_some_of_mem hm hlen with ⟨w, hw⟩
      rw [hw]
      simp [hm]
    · rw [pinVal_not_mem hm]
      simp [hm]
  by_cases hall : (f.vars.map (pinVal V vals)).all (fun o => o.isNone) = true
  · have hcond : conditionFn reg f V vals = f := by
      unfold conditionFn
      rw [if_pos (by rw [hall])]
    have hnone : ∀ v ∈ f.vars, pinVal V vals v = none := by
      intro v hv
      have := List.all_eq_true.mp hall (pinVal V vals v)
        (List.mem_map.mpr ⟨v, hv, rfl⟩)
      simpa using this
    refine ⟨?_, ?_, fun _ => hcond⟩
    · rw [hcond, ← hfiltEq]
      rw [List.filter_eq_self.mpr (fun v hv => by rw [hnone v hv]; rfl)]
    · intro y hy
      rw [hcond] at hy ⊢
      have hmerge : extendTuple f.vars V vals y = y :=
        mergeSub_all_none
          (fun o ho => by
            rcases List.mem_map.mp ho with ⟨v, hv, rfl⟩
            exact hnone v hv)
          (by rw [boundedSub_length hy, hfsz, List.length_map, List.length_map])
      rw [hmerge]
  · have hfree_sorted : List.Sorted (· < ·)
        (f.vars.filter (fun v => (pinVal V vals v).isNone)) :=
      List.Pairwise.filter _ hfs
    have hsort : sortList (f.vars.filter (fun v => (pinVal V vals v).isNone)) =
        f.vars.filter (fun v => (pinVal V vals v).isNone) :=
      sortList_eq_of_sorted hfree_sorted
    have hcond : conditionFn reg f V vals =
        { vars := f.vars.filter (fun v => (pinVal V vals v).isNone),
          sizes := (f.vars.filter (fun v => (pinVal V vals v).isNone)).map reg,
          values :=
            (domainTuples (f.vars.map (pinVal V vals)) f.sizes).foldl
              (fun acc t =>
                acc.set (superIndex
                    (f.vars.filter (fun v => (pinVal V vals v).isNone))
                    ((f.vars.filter (fun v => (pinVal V vals v).isNone)).map reg)
                    f.vars t)
                  (f.values.getD (sub2ind f.sizes t) 0))
              (List.replicate
                ((f.vars.filter (fun v => (pinVal V vals v).isNone)).map reg).prod
                0) } := by
      unfold conditionFn
      rw [if_neg hall]
      simp only [mkDiscreteFunction, mkDiscreteFunction_vars, hsort]
    have hfszfree : freeSizes (f.vars.map (pinVal V vals)) f.sizes =
        (f.vars.filter (fun v => (pinVal V vals v).isNone)).map reg := by
      rw [hfsz]
      exact freeSizes_map_filter reg f.vars (pinVal V vals)
    have hfixlen : (f.vars.map (pinVal V vals)).length = f.sizes.length := by
      rw [List.length_map, hfsz, List.length_map]
    have hwrite : ∀ m, m < (freeSizes (f.vars.map (pinVal V vals)) f.sizes).prod →
        superIndex (f.vars.filter (fun v => (pinVal V vals v).isNone))
          ((f.vars.filter (fun v => (pinVal V vals v).isNone)).map reg)
          f.vars
          (mergeSub (f.vars.map (pinVal V vals))
            (ind2sub (freeSizes (f.vars.map (pinVal V vals)) f.sizes) m)) = m := by
      intro m hm
      rw [superIndex_eq_sub2ind_restrict hfree_sorted hfs
        (fun v hv => List.mem_of_mem_filter hv)
        (by rw [mergeSub_length, List.length_map])
        (by rw [List.length_map])]
      rw [@restrictSub_filter_eq_freeProj f.vars
        (mergeSub (f.vars.map (pinVal V vals))
          (ind2sub (freeSizes (f.vars.map (pinVal V vals)) f.sizes) m))
        (f.vars.filter (fun v => (pinVal V vals v).isNone))
        (pinVal V vals)
        (fun v hv => by
          constructor
          · intro hin
            exact (List.of_mem_filter hin : _)
          · intro hn
            exact List.mem_filter.mpr ⟨hv, hn⟩)
        (by rw [mergeSub_length, List.length_map])]
      rw [freeProj_mergeSub (by
        rw [ind2sub_length, freeSizes_length hfixlen])]
      rw [← hfszfree, sub2ind_ind2sub hm]
    have hvalues :
        (domainTuples (f.vars.map (pinVal V vals)) f.sizes).foldl
          (fun acc t =>
            acc.set (superIndex
                (f.vars.filter (fun v => (pinVal V vals v).isNone))
                ((f.vars.filter (fun v => (pinVal V vals v).isNone)).map reg)
                f.vars t)
              (f.values.getD (sub2ind f.sizes t) 0))
          (List.replicate
            ((f.vars.filter (fun v => (pinVal V vals v).isNone)).map reg).prod
            0) =
        (List.range ((freeSizes (f.vars.map (pinVal V vals)) f.sizes).prod)).map
          (fun m => f.values.getD (sub2ind f.sizes
            (mergeSub (f.vars.map (pinVal V vals))
              (ind2sub (freeSizes (f.vars.map (pinVal V vals)) f.sizes) m))) 0) := by
      unfold domainTuples
      rw [List.foldl_map]
      rw [List.foldl_ext _ (fun acc m =>
        acc.set m (f.values.getD (sub2ind f.sizes
          (mergeSub (f.vars.map (pinVal V vals))
            (ind2sub (freeSizes (f.vars.map (pinVal V vals)) f.sizes) m))) 0))
        _ (fun acc m hm => by rw [hwrite m (List.mem_range.mp hm)])]
      exact overwriteSeq_eq_map _ (by rw [List.length_replicate, hfszfree])
    refine ⟨?_, ?_, ?_⟩
    · rw [hcond, ← hfiltEq]
    · intro y hy
      rw [hcond] at hy ⊢
      simp only [DiscreteFunction.atOwn] at hy ⊢
      rw [hvalues]
      have hybnd : boundedSub (freeSizes (f.vars.map (pinVal V vals)) f.sizes) y := by
        rw [hfszfree]
        exact hy
      have hjlt : sub2ind ((f.vars.filter (fun v => (pinVal V vals v).isNone)).map reg) y <
          (freeSizes (f.vars.map (pinVal V vals)) f.sizes).prod := by
        rw [hfszfree]
        exact sub2ind_lt hy
      rw [getD_map_range _ hjlt]
      rw [show sub2ind ((f.vars.filter (fun v => (pinVal V vals v).isNone)).map reg) y
          = sub2ind (freeSizes (f.vars.map (pinVal V vals)) f.sizes) y from by
        rw [hfszfree]]
      rw [ind2sub_sub2ind hybnd]
      rfl
    · intro hdisj
      exfalso
      apply hall
      rw [List.all_eq_true]
      intro o ho
      rcases List.mem_map.mp ho with ⟨v, hv, rfl⟩
      rw [pinVal_not_mem (fun hc => hdisj v hc hv)]
      rfl

/-- Witness for C3 at a concrete registry, function and conditioning lists. -/
theorem condition_spec_witness :
    (Wf (fun _ => 2) (mkDiscreteFunction (fun _ => 2) [1, 2] 6) ∧
      List.Sorted (· < ·) [2] ∧ ([1] : List Nat).length = [2].length ∧
      boundedSub ([2].map (fun _ => 2)) [1]) ∧
    ((conditionFn (fun _ => 2) (mkDiscreteFunction (fun _ => 2) [1, 2] 6) [2] [1]).vars =
        (mkDiscreteFunction (fun _ => 2) [1, 2] 6).vars.filter (fun v => decide (v ∉ [2])) ∧
      (∀ y, boundedSub (conditionFn (fun _ => 2)
            (mkDiscreteFunction (fun _ => 2) [1, 2] 6) [2] [1]).sizes y →
        (conditionFn (fun _ => 2) (mkDiscreteFunction (fun _ => 2) [1, 2] 6) [2] [1]).atOwn y =
          (mkDiscreteFunction (fun _ => 2) [1, 2] 6).atOwn
            (extendTuple (mkDiscreteFunction (fun _ => 2) [1, 2] 6).vars [2] [1] y)) ∧
      ((∀ v ∈ [2], v ∉ (mkDiscreteFunction (fun _ => 2) [1, 2] 6).vars) →
        conditionFn (fun _ => 2) (mkDiscreteFunction (fun _ => 2) [1, 2] 6) [2] [1] =
          mkDiscreteFunction (fun _ => 2) [1, 2] 6)) :=
  ⟨⟨by decide, by decide, by decide, by decide⟩,
    condition_spec (fun _ => 2) (mkDiscreteFunction (fun _ => 2) [1, 2] 6) [2] [1]
      (by decide) (by decide) (by decide) (by decide)⟩

/-! ## Comparisons -/

/-- Modelled from the spec: `equalWithinTolerance` (whose out-of-line body is
not among the sources) walks every coordinate tuple of the union of the two
domains comparing broadcasted values; with `tol = 0` the comparison is exact
equality, otherwise the relative test `|1 - f1/f2| < tol` is applied where
the denominator is nonzero (zero denominators are unspecified in the spec and
skipped here). -/
def equalWithinTolerance (reg : Nat → Nat) (f1 f2 : DiscreteFunction)
    (tol : ℚ) : Bool :=
  (List.range ((uniqueConsec (sortList (f1.vars ++ f2.vars))).map reg).prod).all
    (fun k =>
      if tol = 0 then
        decide (f1.superAt (uniqueConsec (sortList (f1.vars ++ f2.vars)))
            (ind2sub ((uniqueConsec (sortList (f1.vars ++ f2.vars))).map reg) k) =
          f2.superAt (uniqueConsec (sortList (f1.vars ++ f2.vars)))
            (ind2sub ((uniqueConsec (sortList (f1.vars ++ f2.vars))).map reg) k))
      else
        decide (f2.superAt (uniqueConsec (sortList (f1.vars ++ f2.vars)))
              (ind2sub ((uniqueConsec (sortList (f1.vars ++ f2.vars))).map reg) k) = 0 ∨
          |1 - f1.superAt (uniqueConsec (sortList (f1.vars ++ f2.vars)))
              (ind2sub ((uniqueConsec (sortList (f1.vars ++ f2.vars))).map reg) k) /
            f2.superAt (uniqueConsec (sortList (f1.vars ++ f2.vars)))
              (ind2sub ((uniqueConsec (sortList (f1.vars ++ f2.vars))).map reg) k)| < tol))

/-- Embeds `operator==(f1, f2)`, defined in the header as
`equalWithinTolerance(f1, f2, 0.0)`. -/
def funEq (reg : Nat → Nat) (f1 f2 : DiscreteFunction) : Bool :=
  equalWithinTolerance reg f1 f2 0

/-- C5: `equalWithinTolerance` at tolerance zero, and hence `operator==`,
holds exactly when the broadcasted values of the two functions agree at every
coordinate tuple of the union of their domains. -/
theorem equalTolerance_zero_spec (reg : Nat → Nat) (f1 f2 : DiscreteFunction) :
    funEq reg f1 f2 = equalWithinTolerance reg f1 f2 0 ∧
    (equalWithinTolerance reg f1 f2 0 = true ↔
      ∀ x, boundedSub ((uniqueConsec (sortList (f1.vars ++ f2.vars))).map reg) x →
        f1.superAt (uniqueConsec (sortList (f1.vars ++ f2.vars))) x =
          f2.superAt (uniqueConsec (sortList (f1.vars ++ f2.vars))) x) := by
  refine ⟨rfl, ?_⟩
  unfold equalWithinTolerance
  rw [List.all_eq_true]
  constructor
  · intro h x hx
    have hk : sub2ind ((uniqueConsec (sortList (f1.vars ++ f2.vars))).map reg) x <
        ((uniqueConsec (sortList (f1.vars ++ f2.vars))).map reg).prod :=
      sub2ind_lt hx
    have := h _ (List.mem_range.mpr hk)
    rw [if_pos rfl] at this
    rw [ind2sub_sub2ind hx] at this
    exact of_decide_eq_true this
  · intro h k hk
    rw [if_pos rfl]
    exact decide_eq_true
      (h _ (ind2sub_bounded (List.mem_range.mp hk)))

/-- Embeds `operator<(f, v)`: true iff the loop over every cell never finds
`f(k) >= v`. -/
def funLtScalar (f : DiscreteFunction) (v : ℚ) : Bool :=
  f.values.all (fun x => decide (x < v))

/-- Embeds `operator<=(f, v)`: true iff the loop never finds `f(k) > v`. -/
def funLeScalar (f : DiscreteFunction) (v : ℚ) : Bool :=
  f.values.all (fun x => decide (x ≤ v))

/-- Embeds `operator>(f, v)`: true iff the loop never finds `f(k) <= v`. -/
def funGtScalar (f : DiscreteFunction) (v : ℚ) : Bool :=
  f.values.all (fun x => decide (v < x))

/-- Embeds `operator>=(f, v)`: true iff the loop never finds `f(k) < v`. -/
def funGeScalar (f : DiscreteFunction) (v : ℚ) : Bool :=
  f.values.all (fun x => decide (v ≤ x))

/-- Embeds `operator>=(v, f)`, defined in the header as `f < v`. -/
def scalarGeFun (v : ℚ) (f : DiscreteFunction) : Bool := funLtScalar f v

/-- Embeds `operator>(v, f)`, defined in the header as `f <= v`. -/
def scalarGtFun (v : ℚ) (f : DiscreteFunction) : Bool := funLeScalar f v

/-- Embeds `operator<=(v, f)`, defined in the header as `f > v`. -/
def scalarLeFun (v : ℚ) (f : DiscreteFunction) : Bool := funGtScalar f v

/-- Embeds `operator<(v, f)`, defined in the header as `f >= v`. -/
def scalarLtFun (v : ℚ) (f : DiscreteFunction) : Bool := funGeScalar f v

theorem all_decide_iff_getD {l : List ℚ} {p : ℚ → Prop} [DecidablePred p] :
    (l.all (fun x => decide (p x)) = true) ↔
      ∀ k, k < l.length → p (l.getD k 0) := by
  rw [List.all_eq_true]
  constructor
  · intro h k hk
    rw [List.getD_eq_getElem _ _ hk]
    exact of_decide_eq_true (h _ (l.getElem_mem hk))
  · intro h x hx
    rcases List.mem_iff_getElem.mp hx with ⟨k, hk, rfl⟩
    rw [← List.getD_eq_getElem _ 0 hk]
    exact decide_eq_true (h k hk)

/-- C6 counterexample: the claim that `v < f` holds iff `v < f(k)` at every
cell fails on a constant function whose value equals the scalar, because the
source defines `operator<(v, f)` as `f >= v`. -/
theorem scalar_relops_counterexample :
    scalarLtFun 5 { vars := [], sizes := [], values := [5] } = true ∧
    ¬ (∀ k, k < ({ vars := [], sizes := [], values := [5] } :
          DiscreteFunction).values.length →
        (5 : ℚ) < ({ vars := [], sizes := [], values := [5] } :
          DiscreteFunction).values.getD k 0) := by
  constructor
  · rfl
  · intro h
    have := h 0 (by simp)
    simp at this

/-- C6 as amended: the four function-scalar comparisons hold iff the relation
holds at every cell, while each scalar-function comparison delegates to the
function-scalar comparison with swapped strictness: `v < f` iff `f(k) >= v`
everywhere, `v <= f` iff `f(k) > v` everywhere, `v > f` iff `f(k) <= v`
everywhere, and `v >= f` iff `f(k) < v` everywhere. -/
theorem scalar_relops_spec (f : DiscreteFunction) (v : ℚ) :
    (funLtScalar f v = true ↔ ∀ k, k < f.values.length → f.values.getD k 0 < v) ∧
    (funLeScalar f v = true ↔ ∀ k, k < f.values.length → f.values.getD k 0 ≤ v) ∧
    (funGtScalar f v = true ↔ ∀ k, k < f.values.length → v < f.values.getD k 0) ∧
    (funGeScalar f v = true ↔ ∀ k, k < f.values.length → v ≤ f.values.getD k 0) ∧
    (scalarLtFun v f = true ↔ ∀ k, k < f.values.length → v ≤ f.values.getD k 0) ∧
    (scalarLeFun v f = true ↔ ∀ k, k < f.values.length → v < f.values.getD k 0) ∧
    (scalarGtFun v f = true ↔ ∀ k, k < f.values.length → f.values.getD k 0 ≤ v) ∧
    (scalarGeFun v f = true ↔ ∀ k, k < f.values.length → f.values.getD k 0 < v) :=
  ⟨all_decide_iff_getD, all_decide_iff_getD, all_decide_iff_getD,
    all_decide_iff_getD, all_decide_iff_getD, all_decide_iff_getD,
    all_decide_iff_getD, all_decide_iff_getD⟩

/-! ## The variable registry -/

/-- Modelled from the spec: `registerVariable_ms(var, siz)` (its body lives in
a source file not provided, its contract in `maxsum_c.h`): inserts
`(var, siz)` when the variable is absent, succeeds when it is present with
the same size, and returns `-1` without mutating the registry when it is
present with a different size. -/
def registerVariable (r : List (Nat × Nat)) (var siz : Nat) :
    Int × List (Nat × Nat) :=
  match List.lookup var r with
  | none => (0, (var, siz) :: r)
  | some s => if s = siz then (0, r) else (-1, r)

/-- C7: first registration succeeds, re-registration with the same size
succeeds, and re-registration with a different size returns `-1`, leaves the
registry unchanged, and the original size stays registered. -/
theorem registerVariable_spec (r : List (Nat × Nat)) (var s1 s2 : Nat)
    (habs : List.lookup var r = none) (hne : s2 ≠ s1) :
    (registerVariable r var s1).1 = 0 ∧
    List.lookup var (registerVariable r var s1).2 = some s1 ∧
    (registerVariable (registerVariable r var s1).2 var s1).1 = 0 ∧
    (registerVariable (registerVariable r var s1).2 var s1).2 =
      (registerVariable r var s1).2 ∧
    (registerVariable (registerVariable r var s1).2 var s2).1 = -1 ∧
    (registerVariable (registerVariable r var s1).2 var s2).2 =
      (registerVariable r var s1).2 ∧
    List.lookup var (registerVariable (registerVariable r var s1).2 var s2).2 =
      some s1 := by
  have hreg1 : registerVariable r var s1 = (0, (var, s1) :: r) := by
    unfold registerVariable
    rw [habs]
  have hlook : List.lookup var ((var, s1) :: r) = some s1 := by
    simp [List.lookup]
  have hne2 : s1 ≠ s2 := fun he => hne he.symm
  refine ⟨by rw [hreg1], by rw [hreg1]; exact hlook, ?_, ?_, ?_, ?_, ?_⟩
  · rw [hreg1]
    simp [registerVariable, hlook]
  · rw [hreg1]
    simp [registerVariable, hlook]
  · rw [hreg1]
    simp [registerVariable, hlook, hne2]
  · rw [hreg1]
    simp [registerVariable, hlook, hne2]
  · rw [hreg1]
    simp [registerVariable, hlook, hne2]

/-- Witness for C7 at a concrete registry and sizes. -/
theorem registerVariable_spec_witness :
    (List.lookup 1 ([] : List (Nat × Nat)) = none ∧ (3 : Nat) ≠ 2) ∧
    ((registerVariable [] 1 2).1 = 0 ∧
      List.lookup 1 (registerVariable [] 1 2).2 = some 2 ∧
      (registerVariable (registerVariable [] 1 2).2 1 2).1 = 0 ∧
      (registerVariable (registerVariable [] 1 2).2 1 2).2 =
        (registerVariable [] 1 2).2 ∧
      (registerVariable (registerVariable [] 1 2).2 1 3).1 = -1 ∧
      (registerVariable (registerVariable [] 1 2).2 1 3).2 =
        (registerVariable [] 1 2).2 ∧
      List.lookup 1 (registerVariable (registerVariable [] 1 2).2 1 3).2 =
        some 2) :=
  ⟨⟨rfl, by decide⟩, registerVariable_spec [] 1 2 3 rfl (by decide)⟩

/-! ## The constructor -/

/-- C9 counterexample: the constructor sorts but does not deduplicate, so a
repeated variable id yields a duplicated variable list and a value array
sized by the duplicated product. -/
theorem constructor_counterexample :
    (mkDiscreteFunction (fun _ => 2) [1, 1] 0).vars = [1, 1] ∧
    ¬ (mkDiscreteFunction (fun _ => 2) [1, 1] 0).vars.Nodup ∧
    (mkDiscreteFunction (fun _ => 2) [1, 1] 0).values.length = 4 := by
  refine ⟨by decide, by decide, by decide⟩

/-- C9 as amended: for a duplicate-free variable list (sorted or not), the
constructed function has a sorted duplicate-free variable list with the same
members, sizes cached from the registry, and `∏ sizes` cells holding the
initial scalar. -/
theorem constructor_spec (reg : Nat → Nat) (varList : List Nat) (val : ℚ)
    (hnd : varList.Nodup) :
    List.Sorted (· < ·) (mkDiscreteFunction reg varList val).vars ∧
    (mkDiscreteFunction reg varList val).vars.Nodup ∧
    (∀ v, v ∈ (mkDiscreteFunction reg varList val).vars ↔ v ∈ varList) ∧
    (mkDiscreteFunction reg varList val).sizes =
      (mkDiscreteFunction reg varList val).vars.map reg ∧
    (mkDiscreteFunction reg varList val).values =
      List.replicate (mkDiscreteFunction reg varList val).sizes.prod val := by
  obtain ⟨hs, hsz, hlen⟩ := mkDiscreteFunction_wf reg hnd val
  exact ⟨hs, sorted_lt_nodup hs, fun v => mem_sortList, hsz, rfl⟩

/-- Witness for C9 at a concrete registry and unsorted variable list. -/
theorem constructor_spec_witness :
    ([2, 1] : List Nat).Nodup ∧
    (List.Sorted (· < ·) (mkDiscreteFunction (fun _ => 3) [2, 1] 7).vars ∧
      (mkDiscreteFunction (fun _ => 3) [2, 1] 7).vars.Nodup ∧
      (∀ v, v ∈ (mkDiscreteFunction (fun _ => 3) [2, 1] 7).vars ↔ v ∈ [2, 1]) ∧
      (mkDiscreteFunction (fun _ => 3) [2, 1] 7).sizes =
        (mkDiscreteFunction (fun _ => 3) [2, 1] 7).vars.map (fun _ => 3) ∧
      (mkDiscreteFunction (fun _ => 3) [2, 1] 7).values =
        List.replicate (mkDiscreteFunction (fun _ => 3) [2, 1] 7).sizes.prod 7) :=
  ⟨by decide, constructor_spec (fun _ => 3) [2, 1] 7 (by decide)⟩

/-- Witness for C4 at a concrete registry, function, outer list and tuple. -/
theorem superAccessor_spec_witness :
    (Wf (fun _ => 2) (mkDiscreteFunction (fun _ => 2) [1] 5) ∧
      List.Sorted (· < ·) [1, 2] ∧
      (mkDiscreteFunction (fun _ => 2) [1] 5).vars ⊆ [1, 2] ∧
      boundedSub ([1, 2].map (fun _ => 2)) [1, 0]) ∧
    (mkDiscreteFunction (fun _ => 2) [1] 5).superAt [1, 2] [1, 0] =
      (mkDiscreteFunction (fun _ => 2) [1] 5).atOwn
        (restrictSub [1, 2] [1, 0] (mkDiscreteFunction (fun _ => 2) [1] 5).vars) :=
  ⟨⟨by decide, by decide, by decide, by decide⟩,
    superAccessor_spec (fun _ => 2) (mkDiscreteFunction (fun _ => 2) [1] 5) [1, 2] [1, 0]
      (by decide) (by decide) (by decide) (by decide)⟩

end MaxSum
